import Mathlib

/-!
Verification of the AgentCompiler index compressor (`src/compressor/index.ts`)
against its natural-language specification.

Strings are modelled as lists of unicode scalar values (`List Char`), with
UTF-8 byte length computed per character, exactly as `Buffer.byteLength(s,
'utf-8')` does for the well-formed strings produced by the compressor.
-/

set_option maxRecDepth 8000

namespace AgentCompiler

/-- Character-list model of a JavaScript string. -/
abbrev Str := List Char

/-- Converts a Lean string literal into the character-list model. -/
def str (s : String) : Str := s.data

/-- UTF-8 byte length of a string: `Buffer.byteLength(s, 'utf-8')`. -/
def utf8Len (s : Str) : Nat := (s.map Char.utf8Size).sum

/-- Model of `s.split('\n')`: the list of newline-free segments, never
empty. The recursive result is never `[]`, so taking its `headI`/`tail`
matches prepending the current character to its first segment. -/
def splitLines : Str → List Str
  | [] => [[]]
  | c :: rest =>
    let r := splitLines rest
    if c = '\n' then [] :: r else (c :: r.headI) :: r.tail

/-- Model of `lines.join('\n')`. -/
def joinLines : List Str → Str
  | [] => []
  | [l] => l
  | l :: ls => l ++ '\n' :: joinLines ls

/-- Number of lines of a string, i.e. `s.split('\n').length`. -/
def numLines (s : Str) : Nat := (splitLines s).length

/-- Tests whether the first argument is a leading segment of the second. -/
def hasPre : Str → Str → Bool
  | [], _ => true
  | _ :: _, [] => false
  | p :: ps, c :: cs => p == c && hasPre ps cs

/-- Tests whether the first argument is a trailing segment of the second,
modelling `String.prototype.endsWith`. -/
def hasSuf (pat s : Str) : Bool := hasPre pat.reverse s.reverse

/-- Tests whether the first argument occurs contiguously inside the second,
modelling `String.prototype.includes`. -/
def hasSub (needle : Str) : Str → Bool
  | [] => needle.isEmpty
  | c :: rest => hasPre needle (c :: rest) || hasSub needle rest

/-- ASCII lowercasing of a string, modelling `String.prototype.toLowerCase`
on the ASCII identifiers this program manipulates. -/
def lowerStr (s : Str) : Str := s.map Char.toLower

/-- Pass 1 of `compressAggressively`: `compressed.replace(/\.mdx?/g, '')`.
The regex scans left to right; at a `.` it greedily consumes `.mdx`, else
`.md`, else the scan advances one character. -/
def removeMdx : Str → Str
  | [] => []
  | [c] => [c]
  | [c1, c2] => [c1, c2]
  | [c1, c2, c3] =>
    if c1 = '.' ∧ c2 = 'm' ∧ c3 = 'd' then [] else c1 :: removeMdx [c2, c3]
  | c1 :: c2 :: c3 :: c4 :: rest =>
    if c1 = '.' ∧ c2 = 'm' ∧ c3 = 'd' ∧ c4 = 'x' then removeMdx rest
    else if c1 = '.' ∧ c2 = 'm' ∧ c3 = 'd' then removeMdx (c4 :: rest)
    else c1 :: removeMdx (c2 :: c3 :: c4 :: rest)

/-- Scanner of `s.replace(pat, rep)` with a global literal pattern. The
first argument counts characters of an already-matched occurrence that the
scan must still pass over: on a match at the current position, the
replacement is emitted and the remaining `pat.length - 1` matched
characters are skipped, so the scan resumes right after the occurrence
(non-overlapping, leftmost-first, exactly as the JS global replace). -/
def replaceGo (pat rep : Str) : Nat → Str → Str
  | _, [] => []
  | skip + 1, _ :: rest => replaceGo pat rep skip rest
  | 0, c :: rest =>
    if pat ≠ [] ∧ hasPre pat (c :: rest) then
      rep ++ replaceGo pat rep (pat.length - 1) rest
    else
      c :: replaceGo pat rep 0 rest

/-- Model of `s.replace(pat, rep)` with a global literal pattern. -/
def replaceLit (pat rep : Str) (s : Str) : Str := replaceGo pat rep 0 s

/-- ASCII digit test, modelling the regex class `\d`. -/
def isDigitAZ (c : Char) : Bool := 48 ≤ c.toNat && c.toNat ≤ 57

/-- ASCII lowercase-letter test, modelling the regex class `[a-z]`. -/
def isLowerAZ (c : Char) : Bool := 97 ≤ c.toNat && c.toNat ≤ 122

/-- Decimal rendering of `parseInt(d1 ++ d2)` for two digit characters, as
interpolated by the pass-3 replacement callback: a value below 10 renders
as its single digit (the leading zero disappears), otherwise both digit
characters reappear unchanged. -/
def twoDigitToken (d1 d2 : Char) : Str :=
  if (d1.toNat - 48) * 10 + (d2.toNat - 48) < 10 then
    [Nat.digitChar ((d1.toNat - 48) * 10 + (d2.toNat - 48))]
  else [d1, d2]

/-- Pass 3 of `compressAggressively`:
`compressed.replace(/(\d{2})-([a-z])/g, (_, num, letter) =>
parseInt(num) + letter)`. Only the four matched characters are replaced;
the scan resumes right after the matched letter. -/
def digitPass : Str → Str
  | [] => []
  | [c] => [c]
  | [c1, c2] => [c1, c2]
  | [c1, c2, c3] => [c1, c2, c3]
  | d1 :: d2 :: h3 :: c :: rest =>
    if h3 = '-' ∧ isDigitAZ d1 = true ∧ isDigitAZ d2 = true ∧
        isLowerAZ c = true then
      twoDigitToken d1 d2 ++ c :: digitPass rest
    else
      d1 :: digitPass (d2 :: h3 :: c :: rest)

/-- Pass 4 of `compressAggressively`: `compressed.replace(/\|+/g, '|')`,
collapsing each run of pipes to a single pipe: a pipe followed by another
pipe is dropped, so a run of pipes keeps only its last member. -/
def pipePass : Str → Str
  | [] => []
  | [c] => [c]
  | c1 :: c2 :: rest =>
    if c1 = '|' ∧ c2 = '|' then pipePass (c2 :: rest)
    else c1 :: pipePass (c2 :: rest)

/-- Passes 1-4 of `compressAggressively` in source order: extension
stripping, the four literal abbreviations, digit-prefix contraction, and
pipe-run collapsing. -/
def rewritePasses (s : Str) : Str :=
  pipePass (digitPass
    (replaceLit (str "configuration") (str "config")
      (replaceLit (str "building-your-application") (str "build")
        (replaceLit (str "api-reference") (str "api")
          (replaceLit (str "getting-started") (str "gs")
            (removeMdx s))))))

/-- Fuel-bounded body of the pass-5 truncation loop: while the UTF-8 byte
length of the joined string exceeds the target, drop the last line,
stopping once at most 5 lines remain. Each iteration removes one line, so
fuel equal to the line count makes this exactly the source's unbounded
`while` loop (proved as the termination claim). -/
def truncGoFuel (targetSize : Nat) : Nat → List Str → List Str
  | 0, ls => ls
  | fuel + 1, ls =>
    if utf8Len (joinLines ls) ≤ targetSize then ls
    else if ls.length ≤ 5 then ls
    else truncGoFuel targetSize fuel ls.dropLast

/-- Pass 5 of `compressAggressively` on the line list; the loop state is
the current line list: since the segments produced by `splitLines` never
contain a newline, re-splitting the joined string each iteration (as the
source does) yields this same list back. -/
def truncGo (targetSize : Nat) (ls : List Str) : List Str :=
  truncGoFuel targetSize ls.length ls

/-- Pass 5 of `compressAggressively` on the string itself. -/
def truncLoop (targetSize : Nat) (s : Str) : Str :=
  joinLines (truncGo targetSize (splitLines s))

/-- Model of `compressAggressively(index, skill, targetSize)`; the `skill`
parameter is unused by the source function and omitted here. -/
def compressAggressively (index : Str) (targetSize : Nat) : Str :=
  truncLoop targetSize (rewritePasses index)

/-- Directory listing entry, modelling what `readdir(dir, {withFileTypes:
true})` reports: a file with its `stat` size, or a subdirectory with its own
listing. File contents are not modelled: the claims under verification only
exercise the v1 format, which never reads file contents. -/
inductive Entry where
  | file (name : Str) (size : Nat)
  | dir (name : Str) (entries : List Entry)

mutual

/-- Decidable equality for directory entries. -/
def Entry.deq : (a b : Entry) → Decidable (a = b)
  | .file n s, .file n' s' =>
    match decEq n n', decEq s s' with
    | isTrue h1, isTrue h2 => isTrue (by rw [h1, h2])
    | isFalse h1, _ => isFalse fun h => by injection h with e1 e2; exact h1 e1
    | _, isFalse h2 => isFalse fun h => by injection h with e1 e2; exact h2 e2
  | .file _ _, .dir _ _ => isFalse nofun
  | .dir _ _, .file _ _ => isFalse nofun
  | .dir n es, .dir n' es' =>
    match decEq n n', Entry.deqList es es' with
    | isTrue h1, isTrue h2 => isTrue (by rw [h1, h2])
    | isFalse h1, _ => isFalse fun h => by injection h with e1 e2; exact h1 e1
    | _, isFalse h2 => isFalse fun h => by injection h with e1 e2; exact h2 e2

/-- Decidable equality for directory listings. -/
def Entry.deqList : (a b : List Entry) → Decidable (a = b)
  | [], [] => isTrue rfl
  | [], _ :: _ => isFalse nofun
  | _ :: _, [] => isFalse nofun
  | x :: xs, y :: ys =>
    match Entry.deq x y, Entry.deqList xs ys with
    | isTrue h1, isTrue h2 => isTrue (by rw [h1, h2])
    | isFalse h1, _ => isFalse fun h => by injection h with e1 e2; exact h1 e1
    | _, isFalse h2 => isFalse fun h => by injection h with e1 e2; exact h2 e2

end

instance : DecidableEq Entry := Entry.deq

/-- Node of the in-memory documentation tree built by `buildFileTree`. The
source stores the absolute `path` and the formatter only ever uses
`relative(rootDir, path)`; since `rootDir` is fixed for a whole call, the
model stores that relative path directly. -/
inductive FileNode where
  | mk (path : Str) (name : Str) (isDir : Bool) (children : List FileNode)

mutual

/-- Decidable equality for tree nodes. -/
def FileNode.deq : (a b : FileNode) → Decidable (a = b)
  | .mk p n d c, .mk p' n' d' c' =>
    match decEq p p', decEq n n', decEq d d', FileNode.deqList c c' with
    | isTrue h1, isTrue h2, isTrue h3, isTrue h4 =>
      isTrue (by rw [h1, h2, h3, h4])
    | isFalse h1, _, _, _ =>
      isFalse fun h => by injection h with e1 e2 e3 e4; exact h1 e1
    | _, isFalse h2, _, _ =>
      isFalse fun h => by injection h with e1 e2 e3 e4; exact h2 e2
    | _, _, isFalse h3, _ =>
      isFalse fun h => by injection h with e1 e2 e3 e4; exact h3 e3
    | _, _, _, isFalse h4 =>
      isFalse fun h => by injection h with e1 e2 e3 e4; exact h4 e4

/-- Decidable equality for lists of tree nodes. -/
def FileNode.deqList : (a b : List FileNode) → Decidable (a = b)
  | [], [] => isTrue rfl
  | [], _ :: _ => isFalse nofun
  | _ :: _, [] => isFalse nofun
  | x :: xs, y :: ys =>
    match FileNode.deq x y, FileNode.deqList xs ys with
    | isTrue h1, isTrue h2 => isTrue (by rw [h1, h2])
    | isFalse h1, _ => isFalse fun h => by injection h with e1 e2; exact h1 e1
    | _, isFalse h2 => isFalse fun h => by injection h with e1 e2; exact h2 e2

end

instance : DecidableEq FileNode := FileNode.deq

/-- Relative path of a node from the cache root. -/
def FileNode.path : FileNode → Str
  | .mk p _ _ _ => p

/-- Base name of a node. -/
def FileNode.name : FileNode → Str
  | .mk _ n _ _ => n

/-- Whether a node is a directory. -/
def FileNode.isDir : FileNode → Bool
  | .mk _ _ d _ => d

/-- Children of a node (empty for file nodes). -/
def FileNode.children : FileNode → List FileNode
  | .mk _ _ _ cs => cs

/-- Appends a base name to a relative directory path, modelling the
`relative(rootDir, join(dir, name))` paths the formatter sees. -/
def joinRel (pre name : Str) : Str :=
  if pre.isEmpty then name else pre ++ '/' :: name

/-- Tests `entry.name.startsWith('.')`. -/
def startsWithDot : Str → Bool
  | '.' :: _ => true
  | _ => false

/-- Tests `entry.name.endsWith('.md') || entry.name.endsWith('.mdx')`. -/
def endsWithMd (name : Str) : Bool :=
  hasSuf (str ".md") name || hasSuf (str ".mdx") name

mutual

/-- Nodes contributed by one directory entry in `buildFileTree`: dotfiles
are skipped, subdirectories are kept only when their recursive build is
non-empty, and files are kept only with a `.md`/`.mdx` extension. `pre` is
the relative path of the directory being listed. -/
def buildNode : Entry → Str → List FileNode
  | .file name _, pre =>
    if startsWithDot name then []
    else if endsWithMd name then [.mk (joinRel pre name) name false []]
    else []
  | .dir name sub, pre =>
    if startsWithDot name then []
    else
      let children := buildFileTree sub (joinRel pre name)
      if children.isEmpty then []
      else [.mk (joinRel pre name) name true children]

/-- Model of `buildFileTree(dir)` over a directory listing (content
extraction is v2-only and not exercised by the claims under verification),
walking the entries in listing order. -/
def buildFileTree : List Entry → Str → List FileNode
  | [], _ => []
  | e :: rest, pre => buildNode e pre ++ buildFileTree rest pre

end

/-- The predicate tested for each priority term `p` in `prioritizeTree`:
`node.name.toLowerCase().includes(p.toLowerCase())`. -/
def nameMatch (node : FileNode) (p : Str) : Bool :=
  hasSub (lowerStr p) (lowerStr node.name)

/-- Index of the first matching priority term for a node:
`priority.findIndex(p => node.name.toLowerCase().includes(p.toLowerCase()))`,
with `none` for the `-1` no-match result. -/
def firstMatch (priority : List Str) (node : FileNode) : Option Nat :=
  priority.findIdx? (fun p => nameMatch node p)

/-- One step of the `prioritizeTree` loop: a matching node is written into
its term's slot (overwriting any previous occupant), a non-matching node is
appended to `remaining`. -/
def prioStep (priority : List Str)
    (st : List (Option FileNode) × List FileNode) (node : FileNode) :
    List (Option FileNode) × List FileNode :=
  match firstMatch priority node with
  | some i => (st.1.set i (some node), st.2)
  | none => (st.1, st.2 ++ [node])

/-- The slot array and remaining list after `prioritizeTree`'s loop. The
source assigns into an initially empty JS array, producing holes at
unassigned indices that `filter(Boolean)` later skips; the model uses
`none` for a hole. -/
def prioFold (tree : List FileNode) (priority : List Str) :
    List (Option FileNode) × List FileNode :=
  tree.foldl (prioStep priority) (List.replicate priority.length none, [])

/-- Model of `prioritizeTree(tree, priority)`: with a non-empty priority
list, the assigned slots in index order (holes skipped by
`filter(Boolean)`) followed by the remaining nodes. -/
def prioritizeTree (tree : List FileNode) (priority : List Str) :
    List FileNode :=
  if priority.length = 0 then tree
  else (prioFold tree priority).1.filterMap id ++ (prioFold tree priority).2

/-- Last node of the tree whose first matching priority term is term `i`;
this is what ends up in slot `i` after the `prioritizeTree` loop. -/
def lastMatch (priority : List Str) (tree : List FileNode) (i : Nat) :
    Option FileNode :=
  (tree.filter (fun c => firstMatch priority c == some i)).getLast?

/-- Number of nodes recorded in a `prioritizeTree` loop state: occupied
slots plus remaining nodes; this is the length of the final output. -/
def prioPhi (st : List (Option FileNode) × List FileNode) : Nat :=
  (st.1.filterMap id).length + st.2.length

/-- Model of the `DetectedSkill` fields the compressor reads. -/
structure DetectedSkill where
  name : Str
  version : Str
  displayName : Option Str
deriving DecidableEq

/-- Comma-joined list of strings, modelling `names.join(',')`. -/
def commaJoin (names : List Str) : Str :=
  List.intercalate [','] names

/-- Section line `|{sectionPath}:{files-in-braces}` of the v1 format. -/
def sectionLine (path files : Str) : Str :=
  '|' :: path ++ ':' :: '{' :: files ++ ['}']

/-- Lines contributed by one top-level node in `formatIndexV1`: a directory
yields a section line for its immediate files (when non-empty) followed by
one section line per immediate subdirectory with files; a top-level file
yields `|{name}`. -/
def nodeLinesV1 (node : FileNode) : List Str :=
  if node.isDir then
    let files := commaJoin ((node.children.filter (fun c => !c.isDir)).map
      (fun c => c.name))
    (if files.isEmpty then [] else [sectionLine node.path files]) ++
      (node.children.filter (fun c => c.isDir)).flatMap (fun child =>
        let nestedFiles := commaJoin
          ((child.children.filter (fun c => !c.isDir)).map (fun c => c.name))
        if nestedFiles.isEmpty then []
        else [sectionLine child.path nestedFiles])
  else
    ['|' :: '{' :: node.name ++ ['}']]

/-- First header line of the v1 format:
`[{displayName} Docs Index]|root: ./.agent-docs/{skill.name}`. -/
def headerLine1 (skill : DetectedSkill) : Str :=
  let displayName := skill.displayName.getD skill.name
  '[' :: displayName ++ str " Docs Index]|root: ./.agent-docs/" ++ skill.name

/-- Second header line of the v1 format. -/
def headerLine2 (skill : DetectedSkill) : Str :=
  let displayName := skill.displayName.getD skill.name
  str "|IMPORTANT: Prefer retrieval-led reasoning over pre-training-led reasoning for "
    ++ displayName ++ str " tasks."

/-- Model of `formatIndexV1(skill, tree, rootDir)`. -/
def formatIndexV1 (skill : DetectedSkill) (tree : List FileNode) : Str :=
  joinLines (headerLine1 skill :: headerLine2 skill :: tree.flatMap nodeLinesV1)

/-- Model of `compressIndex(skill, options)` in v1 format (every claim under
verification resolves the format to `'v1'`, the source default). `cacheFs`
is the listing of the skill's cache directory, `none` when the directory
does not exist or cannot be read (the `catch` branch of `buildFileTree`);
`priority` is `getRegistry(skill.name)?.priority || []`, and `targetSize`
the resolved byte budget (8192 by default). -/
def compressIndex (skill : DetectedSkill) (cacheFs : Option (List Entry))
    (priority : List Str) (targetSize : Nat) : Str :=
  let tree := match cacheFs with
    | none => []
    | some entries => buildFileTree entries []
  let orderedTree := prioritizeTree tree priority
  let index := formatIndexV1 skill orderedTree
  if targetSize < utf8Len index then compressAggressively index targetSize
  else index

mutual

/-- Size contribution of one entry in `calcDirSize`: the `stat` size of a
file, or the recursive total of a subdirectory. -/
def calcEntrySize : Entry → Nat
  | .file _ size => size
  | .dir _ sub => calcDirSize sub

/-- Model of the recursive `calcDirSize` inside `getCompressionStats`: the
sum of `stat` sizes of every file under the directory (no dotfile or
extension filtering), 0 for a missing directory. -/
def calcDirSize : List Entry → Nat
  | [] => 0
  | e :: rest => calcEntrySize e + calcDirSize rest

end

/-- Result record of `getCompressionStats`. -/
structure CompressionStats where
  originalSize : Nat
  compressedSize : Nat
  reductionPercent : Int
deriving DecidableEq

/-- Model of `Math.round` on an exact rational: round half toward positive
infinity. -/
def mathRound (q : ℚ) : Int := ⌊q + 1 / 2⌋

/-- Model of `getCompressionStats(skill, options)`: the raw byte total of
the cache directory, the byte length of the freshly compressed index
(computed with default options: v1 format, 8192-byte budget), and the
rounded reduction percentage, 0 when `originalSize` is 0. The floating
point expression `Math.round((1 - compressedSize / originalSize) * 100)` is
modelled exactly over the rationals. -/
def getCompressionStats (skill : DetectedSkill)
    (cacheFs : Option (List Entry)) (priority : List Str) :
    CompressionStats :=
  let originalSize := match cacheFs with
    | none => 0
    | some entries => calcDirSize entries
  let compressed := compressIndex skill cacheFs priority 8192
  let compressedSize := utf8Len compressed
  { originalSize := originalSize
    compressedSize := compressedSize
    reductionPercent :=
      if 0 < originalSize then
        mathRound ((1 - (compressedSize : ℚ) / (originalSize : ℚ)) * 100)
      else 0 }

/-! Concrete inputs used by the scenario claims, counterexamples and
witnesses. -/

/-- Minimal skill with one-character names. -/
def skX : DetectedSkill := ⟨str "n", str "1", some (str "N")⟩

/-- The `nextjs` skill of the concrete end-to-end scenario. -/
def skNext : DetectedSkill := ⟨str "nextjs", str "14.0.0", some (str "Next.js")⟩

/-- Priority list of the `nextjs` registry entry. -/
def nextPriority : List Str := [str "app", str "api-reference", str "routing"]

/-- Cache listing of the concrete end-to-end scenario:
`01-getting-started/{installation.mdx, setup.mdx}`. -/
def fsC4 : List Entry :=
  [.dir (str "01-getting-started")
    [.file (str "installation.mdx") 100, .file (str "setup.mdx") 100]]

/-- Cache listing of the priority scenario: top-level directories
`zz-intro`, `01-app`, `api-reference`, in that listing order. -/
def fsC6 : List Entry :=
  [.dir (str "zz-intro") [.file (str "c.md") 1],
   .dir (str "01-app") [.file (str "a.md") 1],
   .dir (str "api-reference") [.file (str "b.md") 1]]

/-- Cache listing whose directory name `a.m.mdxd` makes the extension-strip
pass produce a fresh `.md` occurrence. -/
def fsC8 : List Entry := [.dir (str "a.m.mdxd") [.file (str "f.md") 1]]

/-- Rendered v1 index of `fsC8`. -/
def idxC8 : Str := formatIndexV1 skX (buildFileTree fsC8 [])

/-- Cache listing with six sections, rendering to an 8-line v1 index. -/
def fsC1 : List Entry :=
  [.dir (str "10-dir") [.file (str "f.md") 1],
   .dir (str "11-dir") [.file (str "f.md") 1],
   .dir (str "12-dir") [.file (str "f.md") 1],
   .dir (str "13-dir") [.file (str "f.md") 1],
   .dir (str "14-dir") [.file (str "f.md") 1],
   .dir (str "15-dir") [.file (str "f.md") 1]]

/-- Rendered v1 index of `fsC1`. -/
def idxC1 : Str := formatIndexV1 skX (buildFileTree fsC1 [])

/-- Cache listing with a single 1-byte file that is not markdown. -/
def fsC3 : List Entry := [.file (str "x") 1]

/-- Cache listing with a pattern-free directory name, on which the rewrite
passes act trivially. -/
def fsW8 : List Entry := [.dir (str "docs") [.file (str "f.md") 1]]

/-- Rendered v1 index of `fsW8`. -/
def idxW8 : Str := formatIndexV1 skX (buildFileTree fsW8 [])

/-- Filler block for the oversized-header skill. -/
def bigBlock : Str := List.replicate 4100 'a'

/-- Skill whose display name (two newlines followed by 4100 `a`s) makes the
header-only v1 render exceed the 8192-byte default budget and span 6 lines. -/
def skBig : DetectedSkill := ⟨str "n", str "1", some ('\n' :: '\n' :: bigBlock)⟩

/-- A top-level node whose name contains `app`. -/
def nodeApp1 : FileNode := .mk (str "app1") (str "app1") true []

/-- Another top-level node whose name contains `app`. -/
def nodeApp2 : FileNode := .mk (str "app2") (str "app2") true []

/-- Middle fragment of the first v1 header line. -/
def strM1 : Str := str " Docs Index]|root: ./.agent-docs/"

/-- Fixed prefix of the second v1 header line. -/
def strP : Str :=
  str "|IMPORTANT: Prefer retrieval-led reasoning over pre-training-led reasoning for "

/-- Fixed suffix of the second v1 header line. -/
def strT : Str := str " tasks."

/-- Concrete part of `skBig`'s index before the first filler block. -/
def bigC1 : Str := ['[', '\n', '\n']

/-- Concrete part of `skBig`'s index between the two filler blocks. -/
def bigC2 : Str := (strM1 ++ str "n") ++ '\n' :: strP ++ ['\n', '\n']

/-- Concrete part of `skBig`'s index after the second filler block. -/
def bigC3 : Str := strT

/-- Third line of `skBig`'s rendered index. -/
def bigL3 : Str := bigBlock ++ (strM1 ++ str "n")

/-- Sixth line of `skBig`'s rendered index. -/
def bigL6 : Str := bigBlock ++ strT

/-- The six lines of `skBig`'s rendered index. -/
def bigLines : List Str := [['['], [], bigL3, strP, [], bigL6]

/-! Basic facts about `utf8Len`, `splitLines` and `joinLines`. -/

theorem utf8Len_cons (c : Char) (s : Str) :
    utf8Len (c :: s) = c.utf8Size + utf8Len s := rfl

theorem utf8Len_append (l s : Str) :
    utf8Len (l ++ s) = utf8Len l + utf8Len s := by
  simp [utf8Len]

theorem utf8Len_replicate (n : Nat) (c : Char) :
    utf8Len (List.replicate n c) = n * c.utf8Size := by
  induction n with
  | zero => simp [utf8Len]
  | succ n ih =>
    rw [List.replicate_succ, utf8Len_cons, ih, Nat.succ_mul]
    omega

theorem splitLines_nil : splitLines [] = [[]] := rfl

theorem splitLines_cons_nl (s : Str) :
    splitLines ('\n' :: s) = [] :: splitLines s := by
  simp [splitLines]

theorem splitLines_cons_ne {c : Char} (h : c ≠ '\n') (s : Str) :
    splitLines (c :: s) =
      (c :: (splitLines s).headI) :: (splitLines s).tail := by
  simp [splitLines, h]

theorem splitLines_ne_nil (s : Str) : splitLines s ≠ [] := by
  cases s with
  | nil => simp [splitLines]
  | cons c rest =>
    by_cases h : c = '\n'
    · subst h; simp [splitLines_cons_nl]
    · simp [splitLines_cons_ne h]

theorem joinLines_cons_cons (c : Char) (l : Str) (ls : List Str) :
    joinLines ((c :: l) :: ls) = c :: joinLines (l :: ls) := by
  cases ls <;> rfl

theorem joinLines_splitLines (s : Str) : joinLines (splitLines s) = s := by
  induction s with
  | nil => rfl
  | cons c rest ih =>
    by_cases h : c = '\n'
    · subst h
      rw [splitLines_cons_nl]
      obtain ⟨l, ls, hr⟩ := List.exists_cons_of_ne_nil (splitLines_ne_nil rest)
      rw [hr] at ih ⊢
      show joinLines ([] :: l :: ls) = _
      rw [show joinLines ([] :: l :: ls) = [] ++ '\n' :: joinLines (l :: ls) from rfl]
      simp [ih]
    · rw [splitLines_cons_ne h]
      obtain ⟨l, ls, hr⟩ := List.exists_cons_of_ne_nil (splitLines_ne_nil rest)
      rw [hr] at ih ⊢
      simp only [List.headI, List.tail]
      rw [joinLines_cons_cons, ih]

theorem mem_splitLines_no_nl (s : Str) :
    ∀ l ∈ splitLines s, '\n' ∉ l := by
  induction s with
  | nil => intro l hl; simp [splitLines] at hl; simp [hl]
  | cons c rest ih =>
    intro l hl
    by_cases h : c = '\n'
    · subst h
      rw [splitLines_cons_nl] at hl
      rcases List.mem_cons.mp hl with hl | hl
      · simp [hl]
      · exact ih l hl
    · rw [splitLines_cons_ne h] at hl
      obtain ⟨l0, ls, hr⟩ := List.exists_cons_of_ne_nil (splitLines_ne_nil rest)
      rw [hr] at hl
      simp only [List.headI, List.tail] at hl
      rcases List.mem_cons.mp hl with hl | hl
      · subst hl
        intro hmem
        rcases List.mem_cons.mp hmem with h1 | h1
        · exact h h1.symm
        · exact ih l0 (hr ▸ List.mem_cons_self l0 ls) h1
      · exact ih l (hr ▸ List.mem_cons_of_mem l0 hl)

theorem splitLines_append_no_nl {l : Str} (h : '\n' ∉ l) (s : Str) :
    splitLines (l ++ s) =
      (l ++ (splitLines s).headI) :: (splitLines s).tail := by
  induction l with
  | nil =>
    obtain ⟨l0, ls, hr⟩ := List.exists_cons_of_ne_nil (splitLines_ne_nil s)
    simp [hr]
  | cons c l' ih =>
    have hc : c ≠ '\n' := fun hc => h (hc ▸ List.mem_cons_self c l')
    have hl' : '\n' ∉ l' := fun hm => h (List.mem_cons_of_mem c hm)
    rw [List.cons_append, splitLines_cons_ne hc, ih hl']
    simp

theorem splitLines_no_nl {s : Str} (h : '\n' ∉ s) : splitLines s = [s] := by
  have := splitLines_append_no_nl h []
  simpa [splitLines] using this

theorem splitLines_joinLines {ls : List Str}
    (h : ∀ l ∈ ls, '\n' ∉ l) (hne : ls ≠ []) :
    splitLines (joinLines ls) = ls := by
  induction ls with
  | nil => exact absurd rfl hne
  | cons l ls' ih =>
    cases ls' with
    | nil => exact splitLines_no_nl (h l (List.mem_cons_self l []))
    | cons l2 ls2 =>
      have hjoin : joinLines (l :: l2 :: ls2) =
          l ++ '\n' :: joinLines (l2 :: ls2) := rfl
      rw [hjoin, splitLines_append_no_nl (h l (List.mem_cons_self l _)),
        splitLines_cons_nl,
        ih (fun x hx => h x (List.mem_cons_of_mem l hx)) (by simp)]
      simp

theorem numLines_eq_count (s : Str) : numLines s = s.count '\n' + 1 := by
  induction s with
  | nil => rfl
  | cons c rest ih =>
    by_cases h : c = '\n'
    · subst h
      simp only [numLines, splitLines_cons_nl, List.length_cons] at ih ⊢
      rw [ih, List.count_cons_self]
    · have hc : (c :: rest).count '\n' = rest.count '\n' := by
        rw [List.count_cons]
        simp [h]
      simp only [numLines] at ih ⊢
      rw [splitLines_cons_ne h, hc]
      obtain ⟨l0, ls, hr⟩ := List.exists_cons_of_ne_nil (splitLines_ne_nil rest)
      rw [hr] at ih ⊢
      simp only [List.tail, List.length_cons] at ih ⊢
      omega

/-! Facts about the `hasPre` / `hasSub` scanning primitives. -/

theorem hasPre_nil_left (s : Str) : hasPre [] s = true := by
  cases s <;> rfl

theorem hasPre_nil_right {pat : Str} (h : pat ≠ []) : hasPre pat [] = false := by
  cases pat with
  | nil => exact absurd rfl h
  | cons p ps => rfl

theorem hasSub_cons (pat : Str) (c : Char) (t : Str) :
    hasSub pat (c :: t) = (hasPre pat (c :: t) || hasSub pat t) := rfl

theorem hasPre_false_of_hasSub_false {pat t : Str}
    (h : hasSub pat t = false) : hasPre pat t = false := by
  cases t with
  | nil =>
    have hne : pat ≠ [] := by
      intro he
      rw [he] at h
      simp [hasSub] at h
    exact hasPre_nil_right hne
  | cons c t' =>
    rw [hasSub_cons] at h
    exact (Bool.or_eq_false_iff.mp h).1

theorem hasSub_tail_false {pat : Str} {c : Char} {t : Str}
    (h : hasSub pat (c :: t) = false) : hasSub pat t = false := by
  rw [hasSub_cons] at h
  exact (Bool.or_eq_false_iff.mp h).2

theorem hasPre_left_of_append {p q s : Str}
    (h : hasPre (p ++ q) s = true) : hasPre p s = true := by
  induction p generalizing s with
  | nil => exact hasPre_nil_left s
  | cons a ps ih =>
    cases s with
    | nil => simp [hasPre] at h
    | cons c cs =>
      simp only [List.cons_append, hasPre, Bool.and_eq_true] at h ⊢
      exact ⟨h.1, ih h.2⟩

theorem hasPre_append_of_le {pat l : Str} (h : pat.length ≤ l.length)
    (s : Str) : hasPre pat (l ++ s) = hasPre pat l := by
  induction pat generalizing l with
  | nil => rw [hasPre_nil_left, hasPre_nil_left]
  | cons p ps ih =>
    cases l with
    | nil => simp at h
    | cons c cs =>
      simp only [List.length_cons, Nat.add_le_add_iff_right] at h
      simp only [List.cons_append, hasPre, List.append_eq]
      rw [ih h]

theorem hasPre_eq_append {pat s : Str} (h : hasPre pat s = true) :
    s = pat ++ s.drop pat.length := by
  induction pat generalizing s with
  | nil => simp
  | cons p ps ih =>
    cases s with
    | nil => simp [hasPre] at h
    | cons c cs =>
      simp only [hasPre, Bool.and_eq_true, beq_iff_eq] at h
      obtain ⟨rfl, h2⟩ := h
      simpa using ih h2

theorem hasSub_append_false (pat l s : Str) (k : Nat)
    (hk : pat.length ≤ k + 1) (h1 : hasSub pat l = false)
    (h2 : hasSub pat s = false)
    (h3 : hasSub pat (l.drop (l.length - k) ++ s.take k) = false) :
    hasSub pat (l ++ s) = false := by
  induction l with
  | nil => simpa using h2
  | cons c l' ih =>
    have h1' : hasSub pat l' = false := hasSub_tail_false h1
    have hpre1 : hasPre pat (c :: l') = false := hasPre_false_of_hasSub_false h1
    have h3' : hasSub pat (l'.drop (l'.length - k) ++ s.take k) = false := by
      by_cases hlen : k ≤ l'.length
      · have : (c :: l').length - k = (l'.length - k) + 1 := by
          simp only [List.length_cons]; omega
        rw [this, List.drop_succ_cons] at h3
        exact h3
      · have hzero : (c :: l').length - k = 0 := by
          simp only [List.length_cons]; omega
        have hzero' : l'.length - k = 0 := by omega
        rw [hzero, List.drop_zero] at h3
        rw [hzero', List.drop_zero]
        rw [List.cons_append] at h3
        exact hasSub_tail_false h3
    have hrest : hasSub pat (l' ++ s) = false := ih h1' h3'
    rw [List.cons_append, hasSub_cons, Bool.or_eq_false_iff]
    refine ⟨?_, hrest⟩
    by_cases hfit : pat.length ≤ (c :: l').length
    · show hasPre pat ((c :: l') ++ s) = false
      rw [hasPre_append_of_le hfit s]
      exact hpre1
    · have hlk : (c :: l').length ≤ k := by omega
      have hzero : (c :: l').length - k = 0 := by omega
      rw [hzero, List.drop_zero] at h3
      by_cases hs : s.length ≤ k
      · rw [List.take_of_length_le hs] at h3
        show hasPre pat ((c :: l') ++ s) = false
        exact hasPre_false_of_hasSub_false h3
      · have htk : ((c :: l') ++ s.take k).length = (c :: l').length + k := by
          rw [List.length_append, List.length_take]
          omega
        have hfit2 : pat.length ≤ ((c :: l') ++ s.take k).length := by
          rw [htk]
          simp only [List.length_cons] at *
          omega
        have hsplit : (c :: l') ++ s = ((c :: l') ++ s.take k) ++ s.drop k := by
          rw [List.append_assoc, List.take_append_drop]
        show hasPre pat ((c :: l') ++ s) = false
        rw [hsplit, hasPre_append_of_le hfit2]
        exact hasPre_false_of_hasSub_false h3

/-! Each rewrite pass is the identity on strings in which its pattern never
occurs. -/

theorem removeMdx_id (s : Str) (h : hasSub (str ".md") s = false) :
    removeMdx s = s := by
  induction s using removeMdx.induct with
  | case1 => rfl
  | case2 c => rfl
  | case3 c1 c2 => rfl
  | case4 c1 c2 c3 hcond =>
    obtain ⟨rfl, rfl, rfl⟩ := hcond
    exact absurd h (by decide)
  | case5 c1 c2 c3 hcond ih =>
    simp only [removeMdx, if_neg hcond]
  | case6 c1 c2 c3 c4 rest hcond ih =>
    obtain ⟨rfl, rfl, rfl, rfl⟩ := hcond
    have hp : hasPre (str ".md") ('.' :: 'm' :: 'd' :: 'x' :: rest) = true := by
      simp [str, hasPre]
    rw [hasSub_cons, hp] at h
    simp at h
  | case7 c1 c2 c3 c4 rest hmdx hcond ih =>
    obtain ⟨rfl, rfl, rfl⟩ := hcond
    have hp : hasPre (str ".md") ('.' :: 'm' :: 'd' :: c4 :: rest) = true := by
      simp [str, hasPre]
    rw [hasSub_cons, hp] at h
    simp at h
  | case8 c1 c2 c3 c4 rest h1 h2 ih =>
    simp only [removeMdx, if_neg h1, if_neg h2]
    rw [ih (hasSub_tail_false h)]

theorem replaceLit_id (pat rep s : Str) (h : hasSub pat s = false) :
    replaceLit pat rep s = s := by
  unfold replaceLit
  induction s with
  | nil => rfl
  | cons c rest ih =>
    have hpre := hasPre_false_of_hasSub_false h
    simp only [replaceGo]
    rw [if_neg (fun hc => by rw [hpre] at hc; exact Bool.false_ne_true hc.2)]
    rw [ih (hasSub_tail_false h)]

theorem digitPass_id (s : Str) (h : ∀ c ∈ s, isDigitAZ c = false) :
    digitPass s = s := by
  induction s using digitPass.induct with
  | case1 => rfl
  | case2 c => rfl
  | case3 c1 c2 => rfl
  | case4 c1 c2 c3 => rfl
  | case5 d1 d2 h3 c rest hcond ih =>
    exact absurd hcond.2.1 (by simp [h d1 (by simp)])
  | case6 d1 d2 h3 c rest hcond ih =>
    simp only [digitPass, if_neg hcond]
    rw [ih (fun x hx => h x (List.mem_cons_of_mem d1 hx))]

theorem pipePass_id (s : Str) (h : hasSub (str "||") s = false) :
    pipePass s = s := by
  induction s using pipePass.induct with
  | case1 => rfl
  | case2 c => rfl
  | case3 c1 c2 rest hcond ih =>
    obtain ⟨rfl, rfl⟩ := hcond
    have hp : hasPre (str "||") ('|' :: '|' :: rest) = true := by
      simp [str, hasPre]
    rw [hasSub_cons, hp] at h
    simp at h
  | case4 c1 c2 rest hcond ih =>
    simp only [pipePass, if_neg hcond]
    rw [ih (hasSub_tail_false h)]

/-- All four rewrite passes leave a string unchanged when none of their
patterns occurs in it. -/
theorem rewritePasses_id (s : Str)
    (hmd : hasSub (str ".md") s = false)
    (hgs : hasSub (str "getting-started") s = false)
    (hapi : hasSub (str "api-reference") s = false)
    (hbuild : hasSub (str "building-your-application") s = false)
    (hconfig : hasSub (str "configuration") s = false)
    (hdig : ∀ c ∈ s, isDigitAZ c = false)
    (hpipe : hasSub (str "||") s = false) :
    rewritePasses s = s := by
  unfold rewritePasses
  rw [removeMdx_id s hmd, replaceLit_id _ _ s hgs, replaceLit_id _ _ s hapi,
    replaceLit_id _ _ s hbuild, replaceLit_id _ _ s hconfig,
    digitPass_id s hdig, pipePass_id s hpipe]

/-! The rewrite passes never touch newline characters, so they preserve the
line count. -/

theorem digitChar_ne_nl {n : Nat} (h : n < 10) : Nat.digitChar n ≠ '\n' := by
  interval_cases n <;> decide

theorem ne_nl_of_isDigitAZ {c : Char} (h : isDigitAZ c = true) : c ≠ '\n' := by
  intro he
  subst he
  simp [isDigitAZ] at h

theorem twoDigitToken_count_nl (d1 d2 : Char) (h1 : isDigitAZ d1 = true)
    (h2 : isDigitAZ d2 = true) : (twoDigitToken d1 d2).count '\n' = 0 := by
  unfold twoDigitToken
  split
  · rename_i hlt
    simp [List.count_cons, digitChar_ne_nl hlt]
  · simp [List.count_cons, ne_nl_of_isDigitAZ h1, ne_nl_of_isDigitAZ h2]

theorem removeMdx_count_nl (s : Str) :
    (removeMdx s).count '\n' = s.count '\n' := by
  induction s using removeMdx.induct with
  | case1 => rfl
  | case2 c => rfl
  | case3 c1 c2 => rfl
  | case4 c1 c2 c3 hcond =>
    obtain ⟨rfl, rfl, rfl⟩ := hcond
    simp only [removeMdx, if_pos (⟨rfl, rfl, rfl⟩ :
      ('.' : Char) = '.' ∧ ('m' : Char) = 'm' ∧ ('d' : Char) = 'd')]
    decide
  | case5 c1 c2 c3 hcond ih =>
    simp only [removeMdx, if_neg hcond]
  | case6 c1 c2 c3 c4 rest hcond ih =>
    obtain ⟨rfl, rfl, rfl, rfl⟩ := hcond
    rw [show removeMdx ('.' :: 'm' :: 'd' :: 'x' :: rest) = removeMdx rest
        from by simp [removeMdx]]
    rw [ih, List.count_cons, List.count_cons, List.count_cons,
      List.count_cons]
    simp
  | case7 c1 c2 c3 c4 rest hmdx hcond ih =>
    obtain ⟨rfl, rfl, rfl⟩ := hcond
    have hc4 : c4 ≠ 'x' := fun he => hmdx ⟨rfl, rfl, rfl, he⟩
    rw [show removeMdx ('.' :: 'm' :: 'd' :: c4 :: rest) =
        removeMdx (c4 :: rest) from by simp [removeMdx, hc4]]
    rw [ih, List.count_cons, List.count_cons, List.count_cons]
    simp [List.count_cons]
  | case8 c1 c2 c3 c4 rest h1 h2 ih =>
    simp only [removeMdx, if_neg h1, if_neg h2]
    rw [List.count_cons, List.count_cons, ih]

theorem replaceGo_count_nl (pat rep : Str) (hpat : pat.count '\n' = 0)
    (hrep : rep.count '\n' = 0) :
    ∀ (skip : Nat) (t : Str),
      (replaceGo pat rep skip t).count '\n' = (t.drop skip).count '\n' := by
  intro skip t
  induction t generalizing skip with
  | nil => cases skip <;> rfl
  | cons c rest ih =>
    cases skip with
    | succ skip =>
      simp only [replaceGo, List.drop_succ_cons]
      exact ih skip
    | zero =>
      simp only [replaceGo, List.drop_zero]
      by_cases hc : pat ≠ [] ∧ hasPre pat (c :: rest) = true
      · rw [if_pos hc, List.count_append, hrep, ih (pat.length - 1)]
        conv_rhs => rw [hasPre_eq_append hc.2]
        rw [List.count_append, hpat]
        obtain ⟨p0, ps, rfl⟩ := List.exists_cons_of_ne_nil hc.1
        simp only [List.length_cons, Nat.add_sub_cancel, List.drop_succ_cons,
          Nat.zero_add]
      · rw [if_neg hc, List.count_cons, List.count_cons, ih 0, List.drop_zero]

theorem replaceLit_count_nl (pat rep : Str) (hpat : pat.count '\n' = 0)
    (hrep : rep.count '\n' = 0) (s : Str) :
    (replaceLit pat rep s).count '\n' = s.count '\n' := by
  unfold replaceLit
  rw [replaceGo_count_nl pat rep hpat hrep 0 s, List.drop_zero]

theorem digitPass_count_nl (s : Str) :
    (digitPass s).count '\n' = s.count '\n' := by
  induction s using digitPass.induct with
  | case1 => rfl
  | case2 c => rfl
  | case3 c1 c2 => rfl
  | case4 c1 c2 c3 => rfl
  | case5 d1 d2 h3 c rest hcond ih =>
    obtain ⟨rfl, hd1, hd2, hc⟩ := hcond
    simp only [digitPass]
    split
    · rw [List.count_append, twoDigitToken_count_nl d1 d2 hd1 hd2,
        List.count_cons, ih]
      have hcnl : c ≠ '\n' := by
        intro he
        subst he
        simp [isLowerAZ] at hc
      have hd1nl := ne_nl_of_isDigitAZ hd1
      have hd2nl := ne_nl_of_isDigitAZ hd2
      simp [List.count_cons, hcnl, hd1nl, hd2nl]
    · rename_i hfalse
      exact absurd ⟨by simp, hd1, hd2, hc⟩ hfalse
  | case6 d1 d2 h3 c rest hcond ih =>
    simp only [digitPass, if_neg hcond]
    rw [List.count_cons, List.count_cons, ih]

theorem pipePass_count_nl (s : Str) :
    (pipePass s).count '\n' = s.count '\n' := by
  induction s using pipePass.induct with
  | case1 => rfl
  | case2 c => rfl
  | case3 c1 c2 rest hcond ih =>
    obtain ⟨rfl, rfl⟩ := hcond
    simp only [pipePass]
    split
    · rw [ih, List.count_cons, List.count_cons, List.count_cons]
      simp
    · rename_i hfalse
      exact absurd ⟨by simp, by simp⟩ hfalse
  | case4 c1 c2 rest hcond ih =>
    simp only [pipePass, if_neg hcond]
    rw [List.count_cons, List.count_cons, ih]

theorem rewritePasses_count_nl (s : Str) :
    (rewritePasses s).count '\n' = s.count '\n' := by
  unfold rewritePasses
  rw [pipePass_count_nl, digitPass_count_nl,
    replaceLit_count_nl _ _ (by decide) (by decide),
    replaceLit_count_nl _ _ (by decide) (by decide),
    replaceLit_count_nl _ _ (by decide) (by decide),
    replaceLit_count_nl _ _ (by decide) (by decide),
    removeMdx_count_nl]

theorem numLines_rewritePasses (s : Str) :
    numLines (rewritePasses s) = numLines s := by
  rw [numLines_eq_count, numLines_eq_count, rewritePasses_count_nl]

/-! Invariants of the pass-5 truncation loop. -/

theorem truncGoFuel_nil (t fuel : Nat) : truncGoFuel t fuel [] = [] := by
  cases fuel with
  | zero => rfl
  | succ fuel =>
    simp only [truncGoFuel]
    rw [if_pos]
    show utf8Len (joinLines []) ≤ t
    simp [joinLines, utf8Len]

theorem truncGoFuel_mem (t : Nat) :
    ∀ fuel (ls : List Str), ∀ x ∈ truncGoFuel t fuel ls, x ∈ ls := by
  intro fuel
  induction fuel with
  | zero => exact fun ls x hx => hx
  | succ fuel ih =>
    intro ls x hx
    simp only [truncGoFuel] at hx
    split at hx
    · exact hx
    · split at hx
      · exact hx
      · have := ih _ x hx
        rw [List.dropLast_eq_take] at this
        exact List.take_subset _ _ this

theorem truncGo_mem (t : Nat) (ls : List Str) :
    ∀ x ∈ truncGo t ls, x ∈ ls :=
  truncGoFuel_mem t ls.length ls

theorem truncGoFuel_min_floor (t : Nat) :
    ∀ fuel (ls : List Str), min 5 ls.length ≤ (truncGoFuel t fuel ls).length := by
  intro fuel
  induction fuel with
  | zero => intro ls; exact min_le_right _ _
  | succ fuel ih =>
    intro ls
    simp only [truncGoFuel]
    split
    · exact min_le_right _ _
    · split
      · exact min_le_right _ _
      · have := ih ls.dropLast
        rw [List.length_dropLast] at this
        omega

theorem truncGo_min_floor (t : Nat) (ls : List Str) :
    min 5 ls.length ≤ (truncGo t ls).length :=
  truncGoFuel_min_floor t ls.length ls

theorem truncGoFuel_post (t : Nat) :
    ∀ fuel (ls : List Str), ls.length ≤ fuel →
      utf8Len (joinLines (truncGoFuel t fuel ls)) ≤ t ∨
        (truncGoFuel t fuel ls).length ≤ 5 := by
  intro fuel
  induction fuel with
  | zero =>
    intro ls hl
    have : ls = [] := List.length_eq_zero.mp (Nat.le_zero.mp hl)
    subst this
    exact Or.inr (by simp [truncGoFuel])
  | succ fuel ih =>
    intro ls hl
    simp only [truncGoFuel]
    split
    · rename_i h1
      exact Or.inl h1
    · split
      · rename_i h2
        exact Or.inr h2
      · refine ih ls.dropLast ?_
        rw [List.length_dropLast]
        omega

theorem truncGo_post (t : Nat) (ls : List Str) :
    utf8Len (joinLines (truncGo t ls)) ≤ t ∨ (truncGo t ls).length ≤ 5 :=
  truncGoFuel_post t ls.length ls (le_refl _)

theorem truncGoFuel_ne_nil (t : Nat) :
    ∀ fuel (ls : List Str), ls ≠ [] → truncGoFuel t fuel ls ≠ [] := by
  intro fuel
  induction fuel with
  | zero => exact fun ls h => h
  | succ fuel ih =>
    intro ls h
    simp only [truncGoFuel]
    split
    · exact h
    · split
      · exact h
      · rename_i h1 h2
        refine ih ls.dropLast ?_
        have hd := List.length_dropLast ls
        intro he
        rw [he] at hd
        simp at hd
        omega

theorem truncGo_ne_nil (t : Nat) (ls : List Str) (h : ls ≠ []) :
    truncGo t ls ≠ [] :=
  truncGoFuel_ne_nil t ls.length ls h

theorem truncGoFuel_eq_of_le (t : Nat) :
    ∀ fuel1 fuel2 (ls : List Str), ls.length ≤ fuel1 → ls.length ≤ fuel2 →
      truncGoFuel t fuel1 ls = truncGoFuel t fuel2 ls := by
  intro fuel1
  induction fuel1 with
  | zero =>
    intro fuel2 ls h1 h2
    have : ls = [] := List.length_eq_zero.mp (Nat.le_zero.mp h1)
    subst this
    rw [truncGoFuel_nil, truncGoFuel_nil]
  | succ fuel1 ih =>
    intro fuel2 ls h1 h2
    cases fuel2 with
    | zero =>
      have : ls = [] := List.length_eq_zero.mp (Nat.le_zero.mp h2)
      subst this
      rw [truncGoFuel_nil, truncGoFuel_nil]
    | succ fuel2 =>
      simp only [truncGoFuel]
      split
      · rfl
      · split
        · rfl
        · refine ih fuel2 ls.dropLast ?_ ?_ <;>
            (rw [List.length_dropLast]; omega)

theorem truncGo_idem (t : Nat) (ls : List Str) :
    truncGo t (truncGo t ls) = truncGo t ls := by
  show truncGoFuel t (truncGo t ls).length (truncGo t ls) = truncGo t ls
  cases hr : (truncGo t ls).length with
  | zero =>
    have : truncGo t ls = [] := List.length_eq_zero.mp hr
    rw [this, truncGoFuel_nil]
  | succ n =>
    simp only [truncGoFuel]
    rcases truncGo_post t ls with h | h
    · rw [if_pos h]
    · by_cases h1 : utf8Len (joinLines (truncGo t ls)) ≤ t
      · rw [if_pos h1]
      · rw [if_neg h1, if_pos h]

/-! Characterization of the `prioritizeTree` fold. -/

theorem firstMatch_lt {priority : List Str} {node : FileNode} {i : Nat}
    (h : firstMatch priority node = some i) : i < priority.length := by
  unfold firstMatch at h
  obtain ⟨hlt, -⟩ := List.findIdx?_eq_some_iff_getElem.mp h
  exact hlt

theorem prioFoldGo_fst_length (priority : List Str) (l : List FileNode)
    (st : List (Option FileNode) × List FileNode) :
    ((l.foldl (prioStep priority) st).1).length = st.1.length := by
  induction l generalizing st with
  | nil => rfl
  | cons x l ih =>
    rw [List.foldl_cons, ih]
    unfold prioStep
    cases h : firstMatch priority x <;> simp

theorem prioFold_fst_length (priority : List Str) (tree : List FileNode) :
    ((prioFold tree priority).1).length = priority.length := by
  unfold prioFold
  rw [prioFoldGo_fst_length]
  exact List.length_replicate _ _

theorem prioFoldGo_slot_untouched (priority : List Str) (l : List FileNode)
    (st : List (Option FileNode) × List FileNode) (i : Nat)
    (h : ∀ c ∈ l, firstMatch priority c ≠ some i) :
    ((l.foldl (prioStep priority) st).1)[i]? = (st.1)[i]? := by
  induction l generalizing st with
  | nil => rfl
  | cons x l ih =>
    rw [List.foldl_cons, ih _ (fun c hc => h c (List.mem_cons_of_mem x hc))]
    unfold prioStep
    cases hm : firstMatch priority x with
    | none => rfl
    | some j =>
      have hji : j ≠ i := fun he => h x (List.mem_cons_self x l) (he ▸ hm)
      simp [List.getElem?_set_ne hji]

theorem prioFoldGo_snd (priority : List Str) (l : List FileNode)
    (st : List (Option FileNode) × List FileNode) :
    (l.foldl (prioStep priority) st).2 =
      st.2 ++ l.filter (fun c => (firstMatch priority c).isNone) := by
  induction l generalizing st with
  | nil => simp
  | cons x l ih =>
    rw [List.foldl_cons, ih]
    unfold prioStep
    cases hm : firstMatch priority x with
    | none => simp [List.filter_cons, hm]
    | some j => simp [List.filter_cons, hm]

theorem prioFold_snd (priority : List Str) (tree : List FileNode) :
    (prioFold tree priority).2 =
      tree.filter (fun c => (firstMatch priority c).isNone) := by
  unfold prioFold
  rw [prioFoldGo_snd]
  simp

theorem prioFold_fst_eq_map (priority : List Str) (tree : List FileNode) :
    (prioFold tree priority).1 =
      (List.range priority.length).map (lastMatch priority tree) := by
  induction tree using List.reverseRecOn with
  | nil =>
    show List.replicate priority.length none = _
    refine List.ext_getElem? fun i => ?_
    rw [List.getElem?_map]
    by_cases hi : i < priority.length
    · rw [List.getElem?_replicate_of_lt hi, List.getElem?_range hi]
      simp [lastMatch]
    · rw [List.getElem?_eq_none (by simpa using Nat.le_of_not_lt hi),
        List.getElem?_eq_none (by simpa using Nat.le_of_not_lt hi)]
      rfl
  | append_singleton t x ih =>
    unfold prioFold at ih ⊢
    rw [List.foldl_append, List.foldl_cons, List.foldl_nil]
    cases hm : firstMatch priority x with
    | none =>
      unfold prioStep
      rw [hm]
      show (t.foldl (prioStep priority) _).1 = _
      rw [ih]
      refine List.map_congr_left fun i hi => ?_
      unfold lastMatch
      rw [List.filter_append]
      simp [hm]
    | some j =>
      unfold prioStep
      rw [hm]
      show ((t.foldl (prioStep priority) _).1).set j (some x) = _
      rw [ih]
      have hj : j < priority.length := firstMatch_lt hm
      refine List.ext_getElem? fun i => ?_
      by_cases hi : i < priority.length
      · rw [List.getElem?_map, List.getElem?_range hi]
        by_cases hij : i = j
        · subst hij
          rw [List.getElem?_set_self (by simpa using hi)]
          have hlast : lastMatch priority (t ++ [x]) i = some x := by
            unfold lastMatch
            rw [List.filter_append]
            simp only [List.filter_cons, List.filter_nil, hm,
              beq_self_eq_true, if_true]
            rw [List.getLast?_concat]
          rw [Option.map_some', hlast]
        · rw [List.getElem?_set_ne (fun he => hij he.symm),
            List.getElem?_map, List.getElem?_range hi]
          have hlast : lastMatch priority (t ++ [x]) i = lastMatch priority t i := by
            unfold lastMatch
            rw [List.filter_append]
            have hne : (firstMatch priority x == some i) = false := by
              rw [hm]
              simp only [beq_eq_false_iff_ne, ne_eq, Option.some.injEq]
              omega
            simp only [List.filter_cons, List.filter_nil, hne,
              Bool.false_eq_true, if_false]
            simp
          rw [Option.map_some', Option.map_some', hlast]
      · have hge : priority.length ≤ i := Nat.le_of_not_lt hi
        rw [List.getElem?_eq_none, List.getElem?_eq_none]
        · simpa using hge
        · simpa [prioFoldGo_fst_length] using hge

/-! Counting argument for the slot-overwrite length loss. -/

theorem lt_length_of_getElem?_eq_some {α : Type} {l : List α} {i : Nat}
    {v : α} (h : l[i]? = some v) : i < l.length := by
  by_contra hge
  rw [List.getElem?_eq_none (Nat.le_of_not_lt hge)] at h
  cases h

theorem filterMap_id_set_some_length {α : Type} {l : List (Option α)}
    {i : Nat} {y : α} (x : α) (h : l[i]? = some (some y)) :
    ((l.set i (some x)).filterMap id).length = (l.filterMap id).length := by
  induction l generalizing i with
  | nil => cases h
  | cons o l ih =>
    cases i with
    | zero =>
      have : o = some y := by simpa using h
      subst this
      simp [List.filterMap_cons]
    | succ i =>
      have h' : l[i]? = some (some y) := by simpa using h
      rw [List.set_cons_succ]
      cases o with
      | none => simpa [List.filterMap_cons] using ih h'
      | some a => simpa [List.filterMap_cons] using ih h'

theorem filterMap_id_set_length_le {α : Type} (l : List (Option α)) (i : Nat)
    (x : α) :
    ((l.set i (some x)).filterMap id).length ≤ (l.filterMap id).length + 1 := by
  induction l generalizing i with
  | nil => simp
  | cons o l ih =>
    cases i with
    | zero =>
      cases o with
      | none => simp [List.filterMap_cons]
      | some a => simp [List.filterMap_cons]
    | succ i =>
      rw [List.set_cons_succ]
      cases o with
      | none => simpa [List.filterMap_cons] using ih i
      | some a => simpa [List.filterMap_cons] using ih i

theorem prioStep_occ {priority : List Str}
    {st : List (Option FileNode) × List FileNode} {i : Nat} {y : FileNode}
    (h : (st.1)[i]? = some (some y)) (x : FileNode) :
    ∃ z, ((prioStep priority st x).1)[i]? = some (some z) := by
  unfold prioStep
  cases hm : firstMatch priority x with
  | none => exact ⟨y, h⟩
  | some j =>
    by_cases hij : j = i
    · subst hij
      exact ⟨x, List.getElem?_set_self (lt_length_of_getElem?_eq_some h)⟩
    · exact ⟨y, by rw [List.getElem?_set_ne hij]; exact h⟩

theorem prioFoldGo_occ (priority : List Str) (l : List FileNode)
    {st : List (Option FileNode) × List FileNode} {i : Nat} {y : FileNode}
    (h : (st.1)[i]? = some (some y)) :
    ∃ z, ((l.foldl (prioStep priority) st).1)[i]? = some (some z) := by
  induction l generalizing st y with
  | nil => exact ⟨y, h⟩
  | cons x l ih =>
    rw [List.foldl_cons]
    obtain ⟨z, hz⟩ := prioStep_occ h x
    exact ih hz

theorem prioPhi_step_le (priority : List Str)
    (st : List (Option FileNode) × List FileNode) (x : FileNode) :
    prioPhi (prioStep priority st x) ≤ prioPhi st + 1 := by
  unfold prioPhi prioStep
  cases hm : firstMatch priority x with
  | none => simp; omega
  | some j =>
    simp only
    have := filterMap_id_set_length_le st.1 j (x := x)
    omega

theorem prioPhi_step_occ {priority : List Str}
    {st : List (Option FileNode) × List FileNode} {i : Nat} {y : FileNode}
    (h : (st.1)[i]? = some (some y)) (x : FileNode)
    (hm : firstMatch priority x = some i) :
    prioPhi (prioStep priority st x) = prioPhi st := by
  unfold prioPhi prioStep
  rw [hm]
  simp only
  rw [filterMap_id_set_some_length x h]

theorem prioPhi_foldl_le (priority : List Str) (l : List FileNode)
    (st : List (Option FileNode) × List FileNode) :
    prioPhi (l.foldl (prioStep priority) st) ≤ prioPhi st + l.length := by
  induction l generalizing st with
  | nil => simp
  | cons x l ih =>
    rw [List.foldl_cons]
    refine le_trans (ih _) ?_
    have := prioPhi_step_le priority st x
    simp only [List.length_cons]
    omega

/-! Decomposition of the index rendered for `skBig`. -/

theorem bigIndex_decomp :
    formatIndexV1 skBig [] =
      bigC1 ++ (bigBlock ++ (bigC2 ++ (bigBlock ++ bigC3))) := by
  show joinLines [headerLine1 skBig, headerLine2 skBig] = _
  show (headerLine1 skBig) ++ '\n' :: headerLine2 skBig = _
  simp only [headerLine1, headerLine2, skBig, Option.getD_some, strM1, strP,
    strT, bigC1, bigC2, bigC3, List.cons_append, List.append_assoc,
    List.nil_append]

theorem bigIndex_lines :
    formatIndexV1 skBig [] = joinLines bigLines := by
  rw [bigIndex_decomp]
  show _ = ['['] ++ '\n' :: ([] ++ '\n' :: (bigL3 ++ '\n' ::
    (strP ++ '\n' :: ([] ++ '\n' :: bigL6))))
  simp only [bigC1, bigC2, bigC3, bigL3, bigL6, List.cons_append,
    List.append_assoc, List.nil_append]

/-! None of the rewrite patterns occurs in `skBig`'s rendered index. -/

theorem hasPre_head_ne {p c : Char} (h : (p == c) = false) (ps rest : Str) :
    hasPre (p :: ps) (c :: rest) = false := by
  simp [hasPre, h]

theorem hasSub_replicate_false {pat : Str}
    (hrep : ∀ m, hasPre pat (List.replicate m 'a') = false) (n : Nat) :
    hasSub pat (List.replicate n 'a') = false := by
  induction n with
  | zero =>
    have h0 := hrep 0
    cases pat with
    | nil => simp [hasPre] at h0
    | cons p ps => simp [hasSub]
  | succ n ih =>
    rw [List.replicate_succ, hasSub_cons,
      show 'a' :: List.replicate n 'a' = List.replicate (n + 1) 'a' from
        (List.replicate_succ ..).symm,
      hrep (n + 1), ih]
    rfl

theorem hrep_head_ne {p : Char} (ps : Str) (h : (p == 'a') = false) :
    ∀ m, hasPre (p :: ps) (List.replicate m 'a') = false := by
  intro m
  cases m with
  | zero => rfl
  | succ m =>
    rw [List.replicate_succ]
    exact hasPre_head_ne h ps _

theorem hrep_api :
    ∀ m, hasPre (str "api-reference") (List.replicate m 'a') = false := by
  intro m
  match m with
  | 0 => rfl
  | 1 => decide
  | (m + 2) =>
    rw [List.replicate_succ,
      show str "api-reference" = 'a' :: str "pi-reference" from rfl]
    show (('a' == 'a') && hasPre (str "pi-reference")
      (List.replicate (m + 1) 'a')) = false
    rw [List.replicate_succ,
      show str "pi-reference" = 'p' :: str "i-reference" from rfl,
      hasPre_head_ne (by decide)]
    simp

theorem bigBlock_length : bigBlock.length = 4100 := by
  rw [bigBlock, List.length_replicate]

theorem bigBlock_take {k : Nat} (h : k ≤ 4100) (x : Str) :
    (bigBlock ++ x).take k = List.replicate k 'a' := by
  rw [List.take_append_eq_append_take,
    show bigBlock.take k = List.replicate k 'a' from by
      rw [bigBlock, List.take_replicate]
      congr 1
      omega,
    show k - bigBlock.length = 0 from by rw [bigBlock_length]; omega]
  simp

theorem bigBlock_drop {k : Nat} (h : k ≤ 4100) :
    bigBlock.drop (bigBlock.length - k) = List.replicate k 'a' := by
  rw [bigBlock_length, bigBlock, List.drop_replicate]
  congr 1
  omega

theorem take_append_of_le {k : Nat} {l : Str} (x : Str) (h : k ≤ l.length) :
    (l ++ x).take k = l.take k := by
  rw [List.take_append_eq_append_take, show k - l.length = 0 from by omega]
  simp

theorem hasSub_big_false (pat : Str) (k : Nat)
    (hk : pat.length ≤ k + 1) (hk41 : k ≤ 4100) (hk2 : k ≤ bigC2.length)
    (hrep : ∀ m, hasPre pat (List.replicate m 'a') = false)
    (hc1 : hasSub pat bigC1 = false)
    (hc2 : hasSub pat bigC2 = false)
    (hc3 : hasSub pat bigC3 = false)
    (w1 : hasSub pat (bigC1.drop (bigC1.length - k) ++
      List.replicate k 'a') = false)
    (w2 : hasSub pat (List.replicate k 'a' ++ bigC2.take k) = false)
    (w3 : hasSub pat (bigC2.drop (bigC2.length - k) ++
      List.replicate k 'a') = false)
    (w4 : hasSub pat (List.replicate k 'a' ++ bigC3.take k) = false) :
    hasSub pat (bigC1 ++ (bigBlock ++ (bigC2 ++ (bigBlock ++ bigC3)))) =
      false := by
  have hblock : hasSub pat bigBlock = false := by
    rw [bigBlock]
    exact hasSub_replicate_false hrep 4100
  have lvl4 : hasSub pat (bigBlock ++ bigC3) = false := by
    refine hasSub_append_false pat bigBlock bigC3 k hk hblock hc3 ?_
    rw [bigBlock_drop hk41]
    exact w4
  have lvl3 : hasSub pat (bigC2 ++ (bigBlock ++ bigC3)) = false := by
    refine hasSub_append_false pat bigC2 _ k hk hc2 lvl4 ?_
    rw [take_append_of_le _ (by rw [bigBlock_length]; omega),
      show bigBlock.take k = List.replicate k 'a' from by
        rw [bigBlock, List.take_replicate]
        congr 1
        omega]
    exact w3
  have lvl2 : hasSub pat (bigBlock ++ (bigC2 ++ (bigBlock ++ bigC3))) =
      false := by
    refine hasSub_append_false pat bigBlock _ k hk hblock lvl3 ?_
    rw [bigBlock_drop hk41, take_append_of_le _ hk2]
    exact w2
  refine hasSub_append_false pat bigC1 _ k hk hc1 lvl2 ?_
  rw [bigBlock_take hk41]
  exact w1

theorem nosub_md_big :
    hasSub (str ".md")
      (bigC1 ++ (bigBlock ++ (bigC2 ++ (bigBlock ++ bigC3)))) = false := by
  refine hasSub_big_false _ 2 (by decide) (by omega) (by decide)
    (hrep_head_ne _ (by decide)) (by decide) (by decide) (by decide)
    (by decide) (by decide) (by decide) (by decide)

theorem nosub_gs_big :
    hasSub (str "getting-started")
      (bigC1 ++ (bigBlock ++ (bigC2 ++ (bigBlock ++ bigC3)))) = false := by
  refine hasSub_big_false _ 14 (by decide) (by omega) (by decide)
    (hrep_head_ne _ (by decide)) (by decide) (by decide) (by decide)
    (by decide) (by decide) (by decide) (by decide)

theorem nosub_api_big :
    hasSub (str "api-reference")
      (bigC1 ++ (bigBlock ++ (bigC2 ++ (bigBlock ++ bigC3)))) = false := by
  refine hasSub_big_false _ 12 (by decide) (by omega) (by decide)
    hrep_api (by decide) (by decide) (by decide)
    (by decide) (by decide) (by decide) (by decide)

theorem nosub_build_big :
    hasSub (str "building-your-application")
      (bigC1 ++ (bigBlock ++ (bigC2 ++ (bigBlock ++ bigC3)))) = false := by
  refine hasSub_big_false _ 24 (by decide) (by omega) (by decide)
    (hrep_head_ne _ (by decide)) (by decide) (by decide) (by decide)
    (by decide) (by decide) (by decide) (by decide)

theorem nosub_config_big :
    hasSub (str "configuration")
      (bigC1 ++ (bigBlock ++ (bigC2 ++ (bigBlock ++ bigC3)))) = false := by
  refine hasSub_big_false _ 12 (by decide) (by omega) (by decide)
    (hrep_head_ne _ (by decide)) (by decide) (by decide) (by decide)
    (by decide) (by decide) (by decide) (by decide)

theorem nosub_pipes_big :
    hasSub (str "||")
      (bigC1 ++ (bigBlock ++ (bigC2 ++ (bigBlock ++ bigC3)))) = false := by
  refine hasSub_big_false _ 1 (by decide) (by omega) (by decide)
    (hrep_head_ne _ (by decide)) (by decide) (by decide) (by decide)
    (by decide) (by decide) (by decide) (by decide)

theorem big_no_digit :
    ∀ c ∈ bigC1 ++ (bigBlock ++ (bigC2 ++ (bigBlock ++ bigC3))),
      isDigitAZ c = false := by
  intro c hc
  simp only [List.mem_append, bigBlock, List.mem_replicate] at hc
  have hC1 : ∀ x ∈ bigC1, isDigitAZ x = false := by decide
  have hC2 : ∀ x ∈ bigC2, isDigitAZ x = false := by decide
  have hC3 : ∀ x ∈ bigC3, isDigitAZ x = false := by decide
  rcases hc with h | ⟨-, rfl⟩ | h | ⟨-, rfl⟩ | h
  · exact hC1 c h
  · decide
  · exact hC2 c h
  · decide
  · exact hC3 c h

theorem rewritePasses_big :
    rewritePasses (formatIndexV1 skBig []) = formatIndexV1 skBig [] := by
  rw [bigIndex_decomp]
  exact rewritePasses_id _ nosub_md_big nosub_gs_big nosub_api_big
    nosub_build_big nosub_config_big big_no_digit nosub_pipes_big

/-! Byte length and line structure of `skBig`'s rendered index. -/

theorem utf8Len_big : utf8Len (formatIndexV1 skBig []) = 8326 := by
  rw [bigIndex_decomp, utf8Len_append, utf8Len_append, utf8Len_append,
    utf8Len_append, bigBlock, utf8Len_replicate,
    show utf8Len bigC1 = 3 from by decide,
    show utf8Len bigC2 = 116 from by decide,
    show utf8Len bigC3 = 7 from by decide,
    show Char.utf8Size 'a' = 1 from by decide]

theorem nl_notin_bigL3 : '\n' ∉ bigL3 := by
  rw [bigL3]
  intro h
  rcases List.mem_append.mp h with h | h
  · rw [bigBlock] at h
    have := (List.mem_replicate.mp h).2
    cases this
  · exact (by decide : '\n' ∉ strM1 ++ str "n") h

theorem nl_notin_bigL6 : '\n' ∉ bigL6 := by
  rw [bigL6]
  intro h
  rcases List.mem_append.mp h with h | h
  · rw [bigBlock] at h
    have := (List.mem_replicate.mp h).2
    cases this
  · exact (by decide : '\n' ∉ strT) h

theorem bigLines_no_nl : ∀ l ∈ bigLines, '\n' ∉ l := by
  intro l hl
  simp only [bigLines, List.mem_cons, List.not_mem_nil, or_false] at hl
  rcases hl with rfl | rfl | rfl | rfl | rfl | rfl
  · decide
  · simp
  · exact nl_notin_bigL3
  · decide
  · simp
  · exact nl_notin_bigL6

theorem splitLines_big : splitLines (formatIndexV1 skBig []) = bigLines := by
  rw [bigIndex_lines]
  exact splitLines_joinLines bigLines_no_nl (by simp [bigLines])

theorem utf8Len_big5 :
    utf8Len (joinLines [['['], [], bigL3, strP, []]) = 4218 := by
  show utf8Len (['['] ++ '\n' :: ([] ++ '\n' :: (bigL3 ++ '\n' ::
    (strP ++ '\n' :: ([] : Str))))) = 4218
  simp only [utf8Len_append, utf8Len_cons, List.nil_append]
  rw [show utf8Len bigL3 = 4134 from by
      rw [bigL3, utf8Len_append, bigBlock, utf8Len_replicate,
        show utf8Len (strM1 ++ str "n") = 34 from by decide,
        show Char.utf8Size 'a' = 1 from by decide],
    show utf8Len strP = 79 from by decide]
  decide

theorem truncGoFuel_step (t fuel : Nat) (ls : List Str) :
    truncGoFuel t (fuel + 1) ls =
      if utf8Len (joinLines ls) ≤ t then ls
      else if ls.length ≤ 5 then ls
      else truncGoFuel t fuel ls.dropLast := rfl

theorem truncGo_big :
    truncGo 8192 bigLines = [['['], [], bigL3, strP, []] := by
  have hjoin : utf8Len (joinLines bigLines) = 8326 := by
    rw [← bigIndex_lines, utf8Len_big]
  show truncGoFuel 8192 bigLines.length bigLines = _
  rw [show bigLines.length = 5 + 1 from by simp [bigLines],
    truncGoFuel_step, if_neg (by rw [hjoin]; omega),
    if_neg (by simp [bigLines]),
    show bigLines.dropLast = [['['], [], bigL3, strP, []] from by
      simp [bigLines],
    show (5 : Nat) = 4 + 1 from rfl, truncGoFuel_step,
    if_pos (by rw [utf8Len_big5]; omega)]

theorem compressIndex_big :
    compressIndex skBig none [] 8192 =
      joinLines [['['], [], bigL3, strP, []] := by
  show (if 8192 < utf8Len (formatIndexV1 skBig []) then
    compressAggressively (formatIndexV1 skBig []) 8192
    else formatIndexV1 skBig []) = _
  rw [if_pos (by rw [utf8Len_big]; omega)]
  unfold compressAggressively truncLoop
  rw [rewritePasses_big, splitLines_big, truncGo_big]

/-! Claim theorems. -/

/-- Claim C1, counterexample: on the 8-line v1 render of `fsC1` with target
1 byte, the Size Enforcer stops at 5 lines while still over budget, so its
output neither fits the target nor has reached a 3-line floor — the claimed
v1 floor of 3 lines is wrong. -/
theorem claim_C1_counterexample :
    ¬ (utf8Len (compressAggressively idxC1 1) ≤ 1 ∨
      numLines (compressAggressively idxC1 1) ≤ 3) := by
  decide

/-- Claim C1, amended: for every rendered index string and target byte
budget, the Size Enforcer returns output whose UTF-8 byte length is within
the target or whose line count has reached the floor of 5 lines — the same
floor for v1- and v2-origin content — and the output's line count never
drops below the minimum of 5 and the input's line count. -/
theorem claim_C1_amended (s : Str) (t : Nat) :
    (utf8Len (compressAggressively s t) ≤ t ∨
      numLines (compressAggressively s t) ≤ 5) ∧
    min 5 (numLines s) ≤ numLines (compressAggressively s t) := by
  have hls : splitLines (rewritePasses s) ≠ [] := splitLines_ne_nil _
  have hnl : ∀ l ∈ truncGo t (splitLines (rewritePasses s)), '\n' ∉ l :=
    fun l hl => mem_splitLines_no_nl _ l (truncGo_mem _ _ l hl)
  have hne : truncGo t (splitLines (rewritePasses s)) ≠ [] :=
    truncGo_ne_nil _ _ hls
  have hnum : numLines (compressAggressively s t) =
      (truncGo t (splitLines (rewritePasses s))).length := by
    show numLines (joinLines (truncGo t (splitLines (rewritePasses s)))) = _
    unfold numLines
    rw [splitLines_joinLines hnl hne]
  constructor
  · rcases truncGo_post t (splitLines (rewritePasses s)) with h | h
    · exact Or.inl h
    · right
      rw [hnum]
      exact h
  · rw [hnum]
    have hfloor := truncGo_min_floor t (splitLines (rewritePasses s))
    have h2 : (splitLines (rewritePasses s)).length = numLines s := by
      show numLines (rewritePasses s) = numLines s
      exact numLines_rewritePasses s
    rw [h2] at hfloor
    exact hfloor

/-- Claim C2, counterexample: the third pass rewrites the segment `01-app`
to `1app`, not to `1a` — the text after the matched letter is preserved,
not discarded. -/
theorem claim_C2_counterexample :
    digitPass (str "01-app") = str "1app" ∧ str "1app" ≠ str "1a" := by
  decide

/-- Claim C2, amended: at every occurrence of digit-digit-hyphen-lowercase,
the third pass emits the digits parsed as an integer followed by the
letter, replacing only the four matched characters; the rest of the string
after the letter is scanned on, not discarded. -/
theorem claim_C2_amended (d1 d2 c : Char) (rest : Str)
    (h1 : isDigitAZ d1 = true) (h2 : isDigitAZ d2 = true)
    (h3 : isLowerAZ c = true) :
    digitPass (d1 :: d2 :: '-' :: c :: rest) =
      twoDigitToken d1 d2 ++ c :: digitPass rest := by
  simp only [digitPass]
  split
  · rfl
  · rename_i hfalse
    exact absurd ⟨by simp, h1, h2, h3⟩ hfalse

/-- Claim C2, witness: the amended equation evaluated on `01-app`. -/
theorem claim_C2_witness :
    digitPass ('0' :: '1' :: '-' :: 'a' :: str "pp") =
      twoDigitToken '0' '1' ++ 'a' :: digitPass (str "pp") :=
  claim_C2_amended '0' '1' 'a' (str "pp") (by decide) (by decide) (by decide)

/-- Claim C3, counterexample: a cache directory holding a single 1-byte
non-markdown file yields `originalSize = 1` and a 141-byte header-only
index, so `reductionPercent` is negative — it is not confined to 0-100. -/
theorem claim_C3_counterexample :
    (getCompressionStats skNext (some fsC3) nextPriority).reductionPercent <
      0 := by
  show (if 0 < calcDirSize fsC3 then
    mathRound ((1 -
      (utf8Len (compressIndex skNext (some fsC3) nextPriority 8192) : ℚ) /
      (calcDirSize fsC3 : ℚ)) * 100) else 0) < 0
  rw [show utf8Len (compressIndex skNext (some fsC3) nextPriority 8192) = 141
      from by decide,
    show calcDirSize fsC3 = 1 from by decide,
    if_pos (by omega)]
  unfold mathRound
  rw [Int.floor_lt]
  push_cast
  norm_num

/-- Claim C3, amended: `reductionPercent` is an integer at most 100, and it
is exactly 0 whenever `originalSize` is 0; it can however be negative when
the rendered index is larger than the raw documentation. -/
theorem claim_C3_amended (skill : DetectedSkill)
    (cacheFs : Option (List Entry)) (priority : List Str) :
    (getCompressionStats skill cacheFs priority).reductionPercent ≤ 100 ∧
    ((getCompressionStats skill cacheFs priority).originalSize = 0 →
      (getCompressionStats skill cacheFs priority).reductionPercent = 0) := by
  have hred : (getCompressionStats skill cacheFs priority).reductionPercent =
      if 0 < (getCompressionStats skill cacheFs priority).originalSize then
        mathRound ((1 -
          ((getCompressionStats skill cacheFs priority).compressedSize : ℚ) /
          ((getCompressionStats skill cacheFs priority).originalSize : ℚ)) *
          100)
      else 0 := rfl
  constructor
  · rw [hred]
    by_cases h : 0 < (getCompressionStats skill cacheFs priority).originalSize
    · rw [if_pos h]
      unfold mathRound
      have hq : (1 -
          ((getCompressionStats skill cacheFs priority).compressedSize : ℚ) /
          ((getCompressionStats skill cacheFs priority).originalSize : ℚ)) *
          100 + 1 / 2 ≤ (100 : ℚ) + 1 / 2 := by
        have hnn : (0 : ℚ) ≤
            ((getCompressionStats skill cacheFs priority).compressedSize : ℚ) /
            ((getCompressionStats skill cacheFs priority).originalSize : ℚ) :=
          div_nonneg (Nat.cast_nonneg _) (Nat.cast_nonneg _)
        nlinarith
      refine le_trans (Int.floor_le_floor hq) ?_
      have : ⌊(100 : ℚ) + 1 / 2⌋ = 100 := by
        rw [Int.floor_eq_iff]
        norm_num
      omega
    · rw [if_neg h]
      omega
  · intro h0
    rw [hred, if_neg (by omega)]

/-- Claim C3, witness: the amended facts at a concrete skill with a missing
cache directory. -/
theorem claim_C3_witness :
    (getCompressionStats skX none []).reductionPercent = 0 :=
  (claim_C3_amended skX none []).2 (by decide)

/-- Claim C4: for the directory tree
`01-getting-started/{installation.mdx, setup.mdx}` with the `nextjs` skill,
v1 format and budget 8192, the output of `compressIndex` contains the
literal header line and the literal section line of the scenario. -/
theorem claim_C4 :
    (str "[Next.js Docs Index]|root: ./.agent-docs/nextjs") ∈
      splitLines (compressIndex skNext (some fsC4) nextPriority 8192) ∧
    (str "|01-getting-started:\x7binstallation.mdx,setup.mdx\x7d") ∈
      splitLines (compressIndex skNext (some fsC4) nextPriority 8192) := by
  decide

/-- Claim C6: with top-level nodes `zz-intro`, `01-app`, `api-reference`
(in that listing order) and priority list `["app", "api"]`, the Prioritizer
orders the nodes as `01-app`, `api-reference`, `zz-intro`, and the rendered
v1 section lines appear in that order. -/
theorem claim_C6 :
    (prioritizeTree (buildFileTree fsC6 []) [str "app", str "api"]).map
        FileNode.name =
      [str "01-app", str "api-reference", str "zz-intro"] ∧
    splitLines (formatIndexV1 skX
        (prioritizeTree (buildFileTree fsC6 []) [str "app", str "api"])) =
      [str "[N Docs Index]|root: ./.agent-docs/n",
       str "|IMPORTANT: Prefer retrieval-led reasoning over pre-training-led reasoning for N tasks.",
       str "|01-app:\x7ba.md\x7d", str "|api-reference:\x7bb.md\x7d",
       str "|zz-intro:\x7bc.md\x7d"] := by
  decide

/-- Claim C5, counterexample: with a missing cache directory, a skill whose
oversized displayName pushes the two-line header over the 8192-byte budget
makes `compressIndex` run the Size Enforcer, producing output that differs
from the plain two-header-line render — the returned string is not always
exactly the 2 header lines. -/
theorem claim_C5_counterexample :
    compressIndex skBig none [] 8192 ≠ formatIndexV1 skBig [] := by
  intro he
  have h5 : splitLines (compressIndex skBig none [] 8192) =
      [['['], [], bigL3, strP, []] := by
    rw [compressIndex_big]
    refine splitLines_joinLines ?_ (by simp)
    intro l hl
    refine bigLines_no_nl l ?_
    simp only [List.mem_cons, List.not_mem_nil, or_false] at hl
    rcases hl with rfl | rfl | rfl | rfl | rfl <;> simp [bigLines]
  rw [he, splitLines_big] at h5
  have hlen := congrArg List.length h5
  simp [bigLines] at hlen

/-- Claim C5, amended: with a missing (or unreadable) cache directory the
tree is empty and `compressIndex` returns the pure v1 header render
whenever that render fits the byte budget; the header render consists of
exactly 2 lines whenever the skill's name and displayName contain no
newline character. The enforcer can still rewrite or truncate a header
render that exceeds the budget. -/
theorem claim_C5_amended (skill : DetectedSkill) :
    (utf8Len (formatIndexV1 skill []) ≤ 8192 →
      compressIndex skill none [] 8192 = formatIndexV1 skill []) ∧
    (('\n' ∉ skill.name ∧ ∀ d ∈ skill.displayName, '\n' ∉ d) →
      numLines (formatIndexV1 skill []) = 2) := by
  constructor
  · intro h
    show (if 8192 < utf8Len (formatIndexV1 skill []) then
      compressAggressively (formatIndexV1 skill []) 8192
      else formatIndexV1 skill []) = formatIndexV1 skill []
    rw [if_neg (by omega)]
  · rintro ⟨hn, hd⟩
    have hD : '\n' ∉ skill.displayName.getD skill.name := by
      cases hdn : skill.displayName with
      | none =>
        rw [Option.getD_none]
        exact hn
      | some d =>
        rw [Option.getD_some]
        exact hd d (Option.mem_def.mpr hdn)
    have h1nl : '\n' ∉ headerLine1 skill := by
      intro hmem
      rw [show headerLine1 skill =
        ('[' :: skill.displayName.getD skill.name ++
          str " Docs Index]|root: ./.agent-docs/") ++ skill.name
        from rfl] at hmem
      rcases List.mem_append.mp hmem with h | h
      · rcases List.mem_append.mp h with h | h
        · rcases List.mem_cons.mp h with h | h
          · exact absurd h (by decide)
          · exact hD h
        · exact absurd h (by decide)
      · exact hn h
    have h2nl : '\n' ∉ headerLine2 skill := by
      intro hmem
      rw [show headerLine2 skill =
        (str "|IMPORTANT: Prefer retrieval-led reasoning over pre-training-led reasoning for "
          ++ skill.displayName.getD skill.name) ++ str " tasks."
        from rfl] at hmem
      rcases List.mem_append.mp hmem with h | h
      · rcases List.mem_append.mp h with h | h
        · exact absurd h (by decide)
        · exact hD h
      · exact absurd h (by decide)
    have hform : formatIndexV1 skill [] =
        headerLine1 skill ++ '\n' :: headerLine2 skill := rfl
    rw [hform, numLines_eq_count, List.count_append,
      List.count_eq_zero.mpr h1nl, List.count_cons,
      List.count_eq_zero.mpr h2nl]
    simp

/-- Claim C5, witness: the amended facts evaluated at a small skill with a
missing cache directory. -/
theorem claim_C5_witness :
    compressIndex skX none [] 8192 = formatIndexV1 skX [] ∧
    numLines (formatIndexV1 skX []) = 2 :=
  ⟨(claim_C5_amended skX).1 (by decide),
   (claim_C5_amended skX).2 ⟨by decide, fun d hd => by
      rw [Option.mem_def] at hd
      have hd2 : some (str "N") = some d := hd
      injection hd2 with h
      subst h
      decide⟩⟩

theorem prioStep_fst_some {priority : List Str}
    {st : List (Option FileNode) × List FileNode} {x : FileNode} {j : Nat}
    (h : firstMatch priority x = some j) :
    (prioStep priority st x).1 = st.1.set j (some x) := by
  unfold prioStep
  rw [h]

/-- Claim C7: when two nodes of the tree have the same priority term as
their first case-insensitive substring match, and no later node matches
that term, the slot of that term holds the later of the two nodes — the
earlier node's slot assignment is overwritten (last write wins). -/
theorem claim_C7 (priority : List Str) (xs ys zs : List FileNode)
    (a b : FileNode) (i : Nat) (ha : firstMatch priority a = some i)
    (hb : firstMatch priority b = some i)
    (hz : ∀ c ∈ zs, firstMatch priority c ≠ some i) :
    ((prioFold (xs ++ a :: (ys ++ b :: zs)) priority).1)[i]? =
      some (some b) := by
  have hilt : i < priority.length := firstMatch_lt hb
  unfold prioFold
  rw [List.foldl_append, List.foldl_cons, List.foldl_append, List.foldl_cons]
  rw [prioFoldGo_slot_untouched priority zs _ i hz, prioStep_fst_some hb]
  refine List.getElem?_set_self ?_
  rw [prioFoldGo_fst_length, prioStep_fst_some ha, List.length_set,
    prioFoldGo_fst_length, List.length_replicate]
  exact hilt

/-- Claim C7, witness: the last-write-wins fact evaluated on two nodes both
matching the single priority term `app`. -/
theorem claim_C7_witness :
    ((prioFold ([] ++ nodeApp1 :: ([] ++ nodeApp2 :: []))
      [str "app"]).1)[0]? = some (some nodeApp2) :=
  claim_C7 [str "app"] [] [] [] nodeApp1 nodeApp2 0 (by decide) (by decide)
    (fun c hc => absurd hc (List.not_mem_nil c))

theorem filterMap_id_replicate_none {α : Type} (n : Nat) :
    (List.replicate n (none : Option α)).filterMap id = [] := by
  induction n with
  | zero => rfl
  | succ n ih =>
    rw [List.replicate_succ, List.filterMap_cons]
    exact ih

/-- Claim C9: the Prioritizer's output draws only from the input tree; on a
duplicate-free tree (as produced by `buildFileTree` from distinct directory
entries) the output is duplicate-free; when no two input nodes share a
first-matching priority term the output is a permutation of the input; and
when two input nodes do share a first-matching term the output is strictly
shorter than the input — the earlier node is dropped, not moved to the
remaining group. -/
theorem claim_C9 (tree : List FileNode) (priority : List Str) :
    (∀ x ∈ prioritizeTree tree priority, x ∈ tree) ∧
    (tree.Nodup → (prioritizeTree tree priority).Nodup) ∧
    ((∀ a ∈ tree, ∀ b ∈ tree, ∀ i : Nat, firstMatch priority a = some i →
        firstMatch priority b = some i → a = b) → tree.Nodup →
      (prioritizeTree tree priority).Perm tree) ∧
    (∀ (xs ys zs : List FileNode) (a b : FileNode) (i : Nat),
      tree = xs ++ a :: (ys ++ b :: zs) →
      firstMatch priority a = some i → firstMatch priority b = some i →
      (prioritizeTree tree priority).length < tree.length) := by
  by_cases hp : priority.length = 0
  · have hout0 : prioritizeTree tree priority = tree := by
      unfold prioritizeTree
      rw [if_pos hp]
    refine ⟨?_, ?_, ?_, ?_⟩
    · intro x hx
      rwa [hout0] at hx
    · intro hnd
      rwa [hout0]
    · intro _ _
      rw [hout0]
    · intro xs ys zs a b i htree ha hb
      exact absurd (firstMatch_lt ha) (by omega)
  · have hout : prioritizeTree tree priority =
        (prioFold tree priority).1.filterMap id ++
          (prioFold tree priority).2 := by
      unfold prioritizeTree
      rw [if_neg hp]
    have hslots : (prioFold tree priority).1.filterMap id =
        (List.range priority.length).filterMap (lastMatch priority tree) := by
      rw [prioFold_fst_eq_map, List.filterMap_map]
      rfl
    have hsnd := prioFold_snd priority tree
    have hmemA : ∀ x, x ∈ (List.range priority.length).filterMap
        (lastMatch priority tree) →
        x ∈ tree ∧ ∃ i, firstMatch priority x = some i := by
      intro x hx
      rw [List.mem_filterMap] at hx
      obtain ⟨i, hi, hlast⟩ := hx
      have hxl : (tree.filter
          (fun c => firstMatch priority c == some i)).getLast? = some x :=
        Option.mem_def.mp hlast
      have hxf := List.mem_of_getLast?_eq_some hxl
      rw [List.mem_filter] at hxf
      exact ⟨hxf.1, i, by simpa using hxf.2⟩
    have hslots_nodup : ((List.range priority.length).filterMap
        (lastMatch priority tree)).Nodup := by
      refine List.Nodup.filterMap ?_ (List.nodup_range _)
      intro i j x hxi hxj
      have hxi2 : (tree.filter
          (fun c => firstMatch priority c == some i)).getLast? = some x :=
        Option.mem_def.mp hxi
      have hxj2 : (tree.filter
          (fun c => firstMatch priority c == some j)).getLast? = some x :=
        Option.mem_def.mp hxj
      have hfi := List.mem_of_getLast?_eq_some hxi2
      have hfj := List.mem_of_getLast?_eq_some hxj2
      rw [List.mem_filter] at hfi hfj
      have hi : firstMatch priority x = some i := by simpa using hfi.2
      have hj : firstMatch priority x = some j := by simpa using hfj.2
      rw [hi] at hj
      exact Option.some.inj hj
    refine ⟨?_, ?_, ?_, ?_⟩
    · intro x hx
      rw [hout] at hx
      rcases List.mem_append.mp hx with h | h
      · rw [hslots] at h
        exact (hmemA x h).1
      · rw [hsnd, List.mem_filter] at h
        exact h.1
    · intro hnd
      rw [hout, hslots, hsnd]
      refine List.Nodup.append hslots_nodup (hnd.filter _) ?_
      intro x hx1 hx2
      obtain ⟨-, i, hi⟩ := hmemA x hx1
      rw [List.mem_filter] at hx2
      obtain ⟨-, hx2⟩ := hx2
      rw [hi] at hx2
      simp at hx2
    · intro hshare hnd
      rw [hout, hslots, hsnd]
      have hperm1 : ((List.range priority.length).filterMap
          (lastMatch priority tree)).Perm
          (tree.filter (fun c => (firstMatch priority c).isSome)) := by
        refine (List.perm_ext_iff_of_nodup hslots_nodup
          (hnd.filter _)).mpr ?_
        intro x
        constructor
        · intro hx
          obtain ⟨hxt, i, hi⟩ := hmemA x hx
          rw [List.mem_filter]
          exact ⟨hxt, by rw [hi]; rfl⟩
        · intro hx
          rw [List.mem_filter] at hx
          obtain ⟨hxt, hsome⟩ := hx
          obtain ⟨i, hi⟩ := Option.isSome_iff_exists.mp hsome
          have hxf : x ∈ tree.filter
              (fun c => firstMatch priority c == some i) := by
            rw [List.mem_filter]
            refine ⟨hxt, ?_⟩
            rw [hi]
            simp
          have hne := List.ne_nil_of_mem hxf
          obtain ⟨y, hy⟩ := Option.isSome_iff_exists.mp
            (List.getLast?_isSome.mpr hne)
          have hyt := List.mem_of_getLast?_eq_some hy
          rw [List.mem_filter] at hyt
          have hyfm : firstMatch priority y = some i := by simpa using hyt.2
          have hxy : y = x := hshare y hyt.1 x hxt i hyfm hi
          rw [List.mem_filterMap]
          refine ⟨i, List.mem_range.mpr (firstMatch_lt hi), ?_⟩
          show (tree.filter
            (fun c => firstMatch priority c == some i)).getLast? = some x
          rw [hxy] at hy
          exact hy
      refine (hperm1.append_right _).trans ?_
      have heq : tree.filter (fun c => (firstMatch priority c).isNone) =
          tree.filter (fun c => !(firstMatch priority c).isSome) := by
        refine List.filter_congr fun x _ => ?_
        cases firstMatch priority x <;> rfl
      rw [heq]
      exact List.filter_append_perm _ tree
    · intro xs ys zs a b i htree ha hb
      subst htree
      have hlength_out : (prioritizeTree (xs ++ a :: (ys ++ b :: zs))
          priority).length =
          prioPhi (prioFold (xs ++ a :: (ys ++ b :: zs)) priority) := by
        rw [hout, List.length_append]
        rfl
      have hfold : prioFold (xs ++ a :: (ys ++ b :: zs)) priority =
          List.foldl (prioStep priority) (prioStep priority
            (List.foldl (prioStep priority) (prioStep priority
              (List.foldl (prioStep priority)
                (List.replicate priority.length none, []) xs) a) ys) b)
            zs := by
        unfold prioFold
        rw [List.foldl_append, List.foldl_cons, List.foldl_append,
          List.foldl_cons]
      have h0 : prioPhi ((List.replicate priority.length
          (none : Option FileNode), ([] : List FileNode))) = 0 := by
        show ((List.replicate priority.length
          (none : Option FileNode)).filterMap id).length +
          ([] : List FileNode).length = 0
        rw [filterMap_id_replicate_none]
        rfl
      have hφ0 := prioPhi_foldl_le priority xs
        (List.replicate priority.length none, [])
      have hφ1 := prioPhi_step_le priority (List.foldl (prioStep priority)
        (List.replicate priority.length none, []) xs) a
      have hocc1 : ((prioStep priority (List.foldl (prioStep priority)
          (List.replicate priority.length none, []) xs) a).1)[i]? =
          some (some a) := by
        rw [prioStep_fst_some ha]
        exact List.getElem?_set_self (by
          rw [prioFoldGo_fst_length, List.length_replicate]
          exact firstMatch_lt ha)
      obtain ⟨z, hz2⟩ := prioFoldGo_occ priority ys hocc1
      have hφ2 := prioPhi_foldl_le priority ys (prioStep priority
        (List.foldl (prioStep priority)
          (List.replicate priority.length none, []) xs) a)
      have hφ3 := prioPhi_step_occ hz2 b hb
      have hφ4 := prioPhi_foldl_le priority zs (prioStep priority
        (List.foldl (prioStep priority) (prioStep priority
          (List.foldl (prioStep priority)
            (List.replicate priority.length none, []) xs) a) ys) b)
      rw [hlength_out, hfold]
      have hlen : (xs ++ a :: (ys ++ b :: zs)).length =
          xs.length + ys.length + zs.length + 2 := by
        simp only [List.length_append, List.length_cons]
        omega
      rw [hlen]
      omega

/-- Claim C9, witness: the strict length decrease evaluated on two nodes
both matching the single priority term `app`. -/
theorem claim_C9_witness :
    (prioritizeTree [nodeApp1, nodeApp2] [str "app"]).length <
      ([nodeApp1, nodeApp2] : List FileNode).length :=
  (claim_C9 [nodeApp1, nodeApp2] [str "app"]).2.2.2 [] [] [] nodeApp1
    nodeApp2 0 rfl (by decide) (by decide)

/-- Claim C8, counterexample: on the v1 render of a tree whose directory is
named `a.m.mdxd` and budget 1, the first enforcement leaves a fresh `.md`
occurrence in its output, so re-applying the Size Enforcer changes the
string — the enforcer is not idempotent on its own output in general. -/
theorem claim_C8_counterexample :
    compressAggressively (compressAggressively idxC8 1) 1 ≠
      compressAggressively idxC8 1 := by
  decide

/-- Claim C8, amended: re-applying the Size Enforcer with the same budget
to an already-enforced string yields byte-identical output provided the
rewrite passes leave that enforced output fixed (which can fail when the
first enforcement manufactures a new rewritable pattern such as `.md`). -/
theorem claim_C8_amended (s : Str) (t : Nat)
    (h : rewritePasses (compressAggressively s t) =
      compressAggressively s t) :
    compressAggressively (compressAggressively s t) t =
      compressAggressively s t := by
  have hnl : ∀ l ∈ truncGo t (splitLines (rewritePasses s)), '\n' ∉ l :=
    fun l hl => mem_splitLines_no_nl _ l (truncGo_mem _ _ l hl)
  have hne : truncGo t (splitLines (rewritePasses s)) ≠ [] :=
    truncGo_ne_nil _ _ (splitLines_ne_nil _)
  show joinLines (truncGo t (splitLines
    (rewritePasses (compressAggressively s t)))) = compressAggressively s t
  rw [h]
  show joinLines (truncGo t (splitLines
    (joinLines (truncGo t (splitLines (rewritePasses s)))))) = _
  rw [splitLines_joinLines hnl hne, truncGo_idem]
  rfl

/-- Claim C8, witness: the conditional idempotence applied to the v1 render
of a pattern-free tree at budget 1. -/
theorem claim_C8_witness :
    compressAggressively (compressAggressively idxW8 1) 1 =
      compressAggressively idxW8 1 :=
  claim_C8_amended idxW8 1 (by decide)

/-- Claim C10: the Size Enforcer's truncation loop terminates on every
input: whenever the loop body runs (byte length over target, more than 5
lines), dropping the last line strictly decreases the line count, and with
fuel at least the current line count the fuel-bounded loop body computes
exactly the loop's result, so the `while` loop exits after at most one
iteration per line. -/
theorem claim_C10 :
    (∀ (s : Str) (t : Nat), t < utf8Len s → 5 < numLines s →
      numLines (joinLines (splitLines s).dropLast) < numLines s) ∧
    (∀ (t fuel : Nat) (ls : List Str), ls.length ≤ fuel →
      truncGoFuel t fuel ls = truncGo t ls) := by
  constructor
  · intro s t hbytes hlines
    have hnl : ∀ l ∈ (splitLines s).dropLast, '\n' ∉ l := by
      intro l hl
      refine mem_splitLines_no_nl s l ?_
      rw [List.dropLast_eq_take] at hl
      exact List.take_subset _ _ hl
    have hne : (splitLines s).dropLast ≠ [] := by
      have hd := List.length_dropLast (splitLines s)
      intro he
      rw [he] at hd
      simp at hd
      unfold numLines at hlines
      omega
    unfold numLines
    rw [splitLines_joinLines hnl hne, List.length_dropLast]
    unfold numLines at hlines
    omega
  · intro t fuel ls h
    exact truncGoFuel_eq_of_le t fuel ls.length ls h (le_refl _)

/-- Claim C10, witness: the loop-step decrease and the fuel-independence
evaluated on the 8-line index of `fsC1`. -/
theorem claim_C10_witness :
    numLines (joinLines (splitLines idxC1).dropLast) < numLines idxC1 ∧
    truncGoFuel 1 8 (splitLines idxC1) = truncGo 1 (splitLines idxC1) :=
  ⟨claim_C10.1 idxC1 1 (by decide) (by decide),
   claim_C10.2 1 8 (splitLines idxC1) (by decide)⟩

end AgentCompiler
